import Mathlib

/-!
Verification of the stockconverter search crate.

Rust strings are modeled as lists of Unicode scalar values; the byte-level
operations of the source -- `str::len` and `str::get(0..2)` -- are modeled
through explicit UTF-8 byte sizes. Fallible Rust code returning
`color_eyre::Result` is modeled with `Option`, where `none` stands for the
error case.
-/

/-- Number of bytes in the UTF-8 encoding of a character. -/
def utf8Len (c : Char) : Nat :=
  if c.toNat < 128 then 1
  else if c.toNat < 2048 then 2
  else if c.toNat < 65536 then 3
  else 4

/-- UTF-8 byte length of a string, Rust `str::len`. -/
def strByteLen (s : List Char) : Nat :=
  (s.map utf8Len).sum

/-- Rust `val.get(0..2)` on a string slice: the characters covering bytes 0..2
when the string holds at least two bytes and byte offset 2 is a character
boundary, and `none` otherwise (no panic on short or misaligned input). -/
def firstTwoBytes (s : List Char) : Option (List Char) :=
  match s with
  | [] => none
  | [c] => if utf8Len c = 2 then some [c] else none
  | c1 :: c2 :: _ =>
    if utf8Len c1 = 2 then some [c1]
    else if utf8Len c1 = 1 ∧ utf8Len c2 = 1 then some [c1, c2]
    else none

/-- The four exchange tags of `search/src/lib.rs`. -/
inductive Exchange where
  | ShangHai
  | ShenZhen
  | BeiJing
  | HongKong
deriving DecidableEq

/-- `impl Valid for ShangHai`: first two bytes form the slice "68" or "60". -/
def shangHaiValid (val : List Char) : Bool :=
  match firstTwoBytes val with
  | some v => v = ['6', '8'] ∨ v = ['6', '0']
  | none => false

/-- `impl Valid for ShenZhen`: first two bytes form the slice "00" or "30". -/
def shenZhenValid (val : List Char) : Bool :=
  match firstTwoBytes val with
  | some v => v = ['0', '0'] ∨ v = ['3', '0']
  | none => false

/-- `impl Valid for BeiJing`: first two bytes form "88", "87", "83" or "43". -/
def beiJingValid (val : List Char) : Bool :=
  match firstTwoBytes val with
  | some v => v = ['8', '8'] ∨ v = ['8', '7'] ∨ v = ['8', '3'] ∨ v = ['4', '3']
  | none => false

/-- `impl Valid for HongKong`: UTF-8 byte length equal to 5. -/
def hongKongValid (val : List Char) : Bool :=
  strByteLen val = 5

/-- `Exchange::guess_from_stock`: priority chain HongKong, ShangHai, ShenZhen,
BeiJing; `none` models the "Not a valid stock number" error. -/
def Exchange.guess_from_stock (val : List Char) : Option Exchange :=
  if hongKongValid val then some Exchange.HongKong
  else if shangHaiValid val then some Exchange.ShangHai
  else if shenZhenValid val then some Exchange.ShenZhen
  else if beiJingValid val then some Exchange.BeiJing
  else none

/-- `impl Format for ShangHai`: the digit 1 followed by the code. -/
def shangHaiFormat (val : List Char) : List Char :=
  '1' :: val

/-- `impl Format for ShenZhen`: the digit 0 followed by the code. -/
def shenZhenFormat (val : List Char) : List Char :=
  '0' :: val

/-- `impl Format for BeiJing`: the digit 8 followed by the code. -/
def beiJingFormat (val : List Char) : List Char :=
  '8' :: val

/-- `impl Format for HongKong`: the digit 5 followed by the code. -/
def hongKongFormat (val : List Char) : List Char :=
  '5' :: val

/-- The `Stock` record of `search/src/lib.rs`. -/
structure Stock where
  name : List Char
  code : List Char
  exchange : Exchange
deriving DecidableEq

/-- `Stock::normalize`: dispatch on the exchange tag to the Format impls. -/
def Stock.normalize (s : Stock) : List Char :=
  match s.exchange with
  | Exchange.ShangHai => shangHaiFormat s.code
  | Exchange.ShenZhen => shenZhenFormat s.code
  | Exchange.BeiJing => beiJingFormat s.code
  | Exchange.HongKong => hongKongFormat s.code

/-- The dispatch of `Stock::normalize` factored over an arbitrary tag; this is
the `render(tag, code)` operation of the specification. -/
def exchangeFormat (ex : Exchange) (val : List Char) : List Char :=
  match ex with
  | Exchange.ShangHai => shangHaiFormat val
  | Exchange.ShenZhen => shenZhenFormat val
  | Exchange.BeiJing => beiJingFormat val
  | Exchange.HongKong => hongKongFormat val

/-- `normalize_stock_number` of `search/src/lib.rs`. -/
def normalize_stock_number (val : List Char) : Option (List Char) :=
  if hongKongValid val then some (hongKongFormat val)
  else if shangHaiValid val then some (shangHaiFormat val)
  else if shenZhenValid val then some (shenZhenFormat val)
  else if beiJingValid val then some (beiJingFormat val)
  else none

/-- The loop of the provided trait method `Search::search`, over the fetched
outputs; `conv` is the `TryInto<Stock>` conversion with errors as `none`, and
the second argument is the `hongkong` slot. -/
def searchLoop {α : Type} (conv : α → Option Stock) :
    List α → Option Stock → Option Stock
  | [], hongkong => hongkong
  | output :: rest, hongkong =>
    match conv output with
    | none => searchLoop conv rest hongkong
    | some stock =>
      if stock.exchange = Exchange.HongKong then
        searchLoop conv rest (if hongkong.isNone then some stock else hongkong)
      else some stock

/-- `Search::search` after `search_all` returned `outputs`; `none` models the
"Can not find valid stock number in results" error. -/
def Search.search {α : Type} (conv : α → Option Stock) (outputs : List α) :
    Option Stock :=
  searchLoop conv outputs none

/-- Whitespace as matched by the Sina response scanner. -/
def isWsChar (c : Char) : Bool :=
  c.isWhitespace

/-- Number of values of a 64-bit usize. -/
def usizeBound : Nat :=
  2 ^ 64

/-- `sina::Input`: keyword plus the request counter, a usize modeled as a
natural number taken modulo `usizeBound` wherever the source mutates it. -/
structure SinaInput where
  key : List Char
  count : Nat
deriving DecidableEq

/-- `QueryInput::set_keyword` for `sina::Input`. -/
def SinaInput.set_keyword (i : SinaInput) (keyword : List Char) : SinaInput :=
  SinaInput.mk keyword i.count

/-- `QueryInput::reset` for `sina::Input`: increment the usize counter, with
the release-build wrap-around of `+= 1` at the top of the usize range. -/
def SinaInput.reset (i : SinaInput) : SinaInput :=
  SinaInput.mk i.key ((i.count + 1) % usizeBound)

/-- `sina::Output`: a raw candidate with code and name. -/
structure SinaOutput where
  code : List Char
  name : List Char
deriving DecidableEq

/-- The response parser of `Sina::search_all`: skip whitespace, expect "var",
skip whitespace, skip the variable name (a run without equal signs), expect an
equal sign, then a double-quoted value read as semicolon-separated records of
comma-separated fields. `none` models the parse error path. -/
def sinaParse (text : List Char) : Option (List (List (List Char))) :=
  let t1 := text.dropWhile isWsChar
  if t1.take 3 = ['v', 'a', 'r'] then
    let t4 := ((t1.drop 3).dropWhile isWsChar).dropWhile (fun c => !(c = '='))
    if t4.take 2 = ['=', '"'] then
      let t6 := t4.drop 2
      let content := t6.takeWhile (fun c => !(c = '"'))
      if (t6.dropWhile (fun c => !(c = '"'))).take 1 = ['"'] then
        some ((content.splitOn ';').map (fun r => r.splitOn ','))
      else none
    else none
  else none

/-- `Sina::search_all` applied to a fetched response body: parse, keep records
with at least 3 fields, take field 2 as the code and field 0 as the name. -/
def sinaSearchAll (text : List Char) : Option (List SinaOutput) :=
  (sinaParse text).map fun records =>
    (records.filter (fun v => 3 ≤ v.length)).map
      (fun v => SinaOutput.mk (v.getD 2 []) (v.getD 0 []))

/-- `cninfo::Output`: raw candidate with code, display name and market type
(the serde field named "type", stored in the struct field `exchange`). -/
structure CnInfoOutput where
  code : List Char
  zwjc : List Char
  exchange : List Char
deriving DecidableEq

/-- `cninfo::TYPE_HKE`. -/
def TYPE_HKE : List Char :=
  ['h', 'k', 'e']

/-- `cninfo::TYPE_SHJ`. -/
def TYPE_SHJ : List Char :=
  ['s', 'h', 'j']

/-- `TryFrom<cninfo::Output> for Stock`: the type "hke" forces HongKong,
anything else falls back to `Exchange::guess_from_stock`. -/
def cninfoTryIntoStock (o : CnInfoOutput) : Option Stock :=
  let exchange :=
    if o.exchange = TYPE_HKE then some Exchange.HongKong
    else Exchange.guess_from_stock o.code
  match exchange with
  | some e => some (Stock.mk o.zwjc o.code e)
  | none => none

/-- `hexun::Output`: raw candidate with code, name, org code and market code. -/
structure HexunOutput where
  code : List Char
  name : List Char
  orgcode : List Char
  marketcode : List Char
deriving DecidableEq

/-- `TryFrom<hexun::Output> for Stock`: requires market "a" and one of the org
codes SSE, SZSE, BJSE; everything else is a hard rejection. -/
def hexunTryIntoStock (o : HexunOutput) : Option Stock :=
  let exchange :=
    if o.marketcode = ['a'] then
      if o.orgcode = ['S', 'S', 'E'] then some Exchange.ShangHai
      else if o.orgcode = ['S', 'Z', 'S', 'E'] then some Exchange.ShenZhen
      else if o.orgcode = ['B', 'J', 'S', 'E'] then some Exchange.BeiJing
      else none
    else none
  match exchange with
  | some e => some (Stock.mk o.name o.code e)
  | none => none

/-- ASCII test used by the scanners, Rust `u8::is_ascii`. -/
def isAsciiChar (c : Char) : Bool :=
  c.toNat < 128

/-- Decimal digit test, `neu::digit(10)`. -/
def isDigit10 (c : Char) : Bool :=
  '0' ≤ c ∧ c ≤ '9'

/-- The closing cell marker of the Cfi markup. -/
def tdClose : List Char :=
  ['<', '/', 't', 'd', '>']

/-- `cfi::Output`: raw candidate with code and name. -/
structure CfiOutput where
  code : List Char
  name : List Char
deriving DecidableEq

/-- The `stock_code` pattern of `Cfi::search_all`: a greater-than sign, exactly
six decimal digits, then the closing cell marker; yields the digits and the
rest of the input. -/
def tryCode (s : List Char) : Option (List Char × List Char) :=
  match s with
  | [] => none
  | a :: r =>
    if a = '>' ∧ (r.take 6).length = 6 ∧ (r.take 6).all isDigit10 = true
        ∧ (r.drop 6).take 5 = tdClose then
      some (r.take 6, (r.drop 6).drop 5)
    else none

/-- The `stock_name` pattern of `Cfi::search_all`: a semicolon, a greater-than
sign, one or more non-ASCII characters, then the closing cell marker; yields
the non-ASCII run and the rest of the input. -/
def tryName (s : List Char) : Option (List Char × List Char) :=
  match s with
  | a :: b :: r =>
    if a = ';' ∧ b = '>' ∧ r.takeWhile (fun c => !isAsciiChar c) ≠ []
        ∧ (r.dropWhile (fun c => !isAsciiChar c)).take 5 = tdClose then
      some (r.takeWhile (fun c => !isAsciiChar c),
        (r.dropWhile (fun c => !isAsciiChar c)).drop 5)
    else none
  | _ => none

/-- The scanning loop of `Cfi::search_all`. Every iteration consumes at least
one character, so the loop is driven by a fuel bounded below by the input
length; the two `Option` arguments are the `curr_code` and `curr_name` slots.
A matched code with a complete pending pair emits that pair and is itself
discarded; a matched code otherwise replaces the pending code and clears the
pending name; a matched name fills the name slot only when a code is pending;
any other character is skipped. -/
def cfiScanF : Nat → List Char → Option (List Char) → Option (List Char) →
    List CfiOutput → List CfiOutput
  | _, [], _, _, out => out
  | 0, _ :: _, _, _, out => out
  | fuel + 1, a :: t, currCode, currName, out =>
    match tryCode (a :: t) with
    | some (code, rest) =>
      match currCode, currName with
      | some c, some n => cfiScanF fuel rest none none (out ++ [CfiOutput.mk c n])
      | _, _ => cfiScanF fuel rest (some code) none out
    | none =>
      match tryName (a :: t) with
      | some (name, rest) =>
        if currCode.isSome then cfiScanF fuel rest currCode (some name) out
        else cfiScanF fuel rest currCode currName out
      | none => cfiScanF fuel t currCode currName out

/-- `Cfi::search_all` applied to a fetched response body. -/
def cfiSearchAll (text : List Char) : List CfiOutput :=
  cfiScanF text.length text none none []

/-- Abstract token shape of a Cfi response: code cells, name cells, and filler
characters between them. -/
inductive CfiTok where
  | code (c : List Char)
  | name (n : List Char)
  | junk (ch : Char)

/-- Concrete text of one token. -/
def renderTok : CfiTok → List Char
  | CfiTok.code c => '>' :: (c ++ tdClose)
  | CfiTok.name n => ';' :: '>' :: (n ++ tdClose)
  | CfiTok.junk ch => [ch]

/-- Concrete text of a token sequence. -/
def renderToks (ts : List CfiTok) : List Char :=
  match ts with
  | [] => []
  | t :: rest => renderTok t ++ renderToks rest

/-- Well-formedness of a token: codes are six decimal digits, names are
nonempty non-ASCII runs, and filler characters are not the opening character
of either cell pattern. -/
def validTok : CfiTok → Bool
  | CfiTok.code c => c.length = 6 ∧ c.all isDigit10
  | CfiTok.name n => n ≠ [] ∧ n.all (fun c => !isAsciiChar c)
  | CfiTok.junk ch => ¬(ch = '>') ∧ ¬(ch = ';')

/-- The `Cfi::search_all` loop at the token level. -/
def cfiTokScan : List CfiTok → Option (List Char) → Option (List Char) →
    List CfiOutput → List CfiOutput
  | [], _, _, out => out
  | CfiTok.code code :: ts, currCode, currName, out =>
    match currCode, currName with
    | some c, some n => cfiTokScan ts none none (out ++ [CfiOutput.mk c n])
    | _, _ => cfiTokScan ts (some code) none out
  | CfiTok.name name :: ts, currCode, currName, out =>
    if currCode.isSome then cfiTokScan ts currCode (some name) out
    else cfiTokScan ts currCode currName out
  | CfiTok.junk _ :: ts, currCode, currName, out => cfiTokScan ts currCode currName out

/-- A code or name cell, with filler forgotten. -/
inductive CfiEntry where
  | code (c : List Char)
  | name (n : List Char)

/-- The cells of a token sequence, in order. -/
def toksEntries (ts : List CfiTok) : List CfiEntry :=
  ts.filterMap fun t =>
    match t with
    | CfiTok.code c => some (CfiEntry.code c)
    | CfiTok.name n => some (CfiEntry.name n)
    | CfiTok.junk _ => none

/-- Scanner state: nothing pending, a pending code, or a complete pair. -/
inductive CfiSt where
  | empty
  | pend (c : List Char)
  | full (c : List Char) (n : List Char)

/-- Declarative description of the emitted pairs: a name fills the slot only
when a code is pending and a later name overwrites it; a code seen with no
complete pair pending becomes the pending code and clears the name; a code
seen with a complete pair pending emits that pair and is itself discarded.
In particular a trailing complete pair is never emitted. -/
def cfiEmitSt : CfiSt → List CfiEntry → List CfiOutput
  | _, [] => []
  | CfiSt.empty, CfiEntry.code c :: es => cfiEmitSt (CfiSt.pend c) es
  | CfiSt.empty, CfiEntry.name _ :: es => cfiEmitSt CfiSt.empty es
  | CfiSt.pend _, CfiEntry.code c' :: es => cfiEmitSt (CfiSt.pend c') es
  | CfiSt.pend c, CfiEntry.name n :: es => cfiEmitSt (CfiSt.full c n) es
  | CfiSt.full c n, CfiEntry.code _ :: es => CfiOutput.mk c n :: cfiEmitSt CfiSt.empty es
  | CfiSt.full c _, CfiEntry.name n' :: es => cfiEmitSt (CfiSt.full c n') es

/-- The scanner state denoted by the two slots of the concrete loop. -/
def stOf : Option (List Char) → Option (List Char) → CfiSt
  | some c, some n => CfiSt.full c n
  | some c, none => CfiSt.pend c
  | none, _ => CfiSt.empty

/-- JSON values as produced by the serde parser, for the SoHu response. -/
inductive Json where
  | null
  | bool (b : Bool)
  | num (n : Int)
  | str (s : List Char)
  | arr (xs : List Json)
  | obj (fields : List (List Char × Json))

/-- `serde_json::Value::as_array`. -/
def jsonAsArr : Json → Option (List Json)
  | Json.arr xs => some xs
  | _ => none

/-- `serde_json::Value::as_str`. -/
def jsonAsStr : Json → Option (List Char)
  | Json.str s => some s
  | _ => none

/-- `serde_json::Value::get` with a string key: first matching object field. -/
def jsonGet (j : Json) (key : List Char) : Option Json :=
  match j with
  | Json.obj fields => (fields.find? (fun p => p.1 = key)).map (fun p => p.2)
  | _ => none

/-- `sohu::Output`: raw candidate with code and name. -/
structure SoHuOutput where
  code : List Char
  name : List Char
deriving DecidableEq

/-- The row conversion inside the `SoHu::search_all` loop: rows that are
arrays of at least 3 columns whose columns 1 and 2 are strings yield a
candidate with column 1 as the code and column 2, stripped of every ASCII
character, as the name; all other rows are skipped. -/
def sohuRow (item : Json) : Option SoHuOutput :=
  match jsonAsArr item with
  | some cols =>
    if 3 ≤ cols.length then
      match cols[1]?.bind jsonAsStr, cols[2]?.bind jsonAsStr with
      | some code, some name =>
        some (SoHuOutput.mk code (name.filter (fun c => !isAsciiChar c)))
      | _, _ => none
    else none
  | none => none

/-- The part of `SoHu::search_all` after the JSONP body was parsed: read the
field "result" as an array and convert each row. `none` models the
"Invalid json format" error. -/
def sohuExtract (j : Json) : Option (List SoHuOutput) :=
  match (jsonGet j ['r', 'e', 's', 'u', 'l', 't']).bind jsonAsArr with
  | some rows => some (rows.filterMap sohuRow)
  | none => none

/-- The JSONP unwrapping of `SoHu::search_all`: a run without parentheses, an
opening parenthesis, the inner run without parentheses, then a closing
parenthesis; yields the inner run. -/
def sohuStripParens (text : List Char) : Option (List Char) :=
  match text.dropWhile (fun c => !(c = '(' ∨ c = ')')) with
  | '(' :: r =>
    match r.dropWhile (fun c => !(c = '(' ∨ c = ')')) with
    | ')' :: _ => some (r.takeWhile (fun c => !(c = '(' ∨ c = ')')))
    | _ => none
  | _ => none

theorem takeWhile_all_append (p : Char → Bool) (l : List Char) (c : Char)
    (r : List Char) (hl : ∀ a ∈ l, p a = true) (hc : p c = false) :
    (l ++ c :: r).takeWhile p = l := by
  rw [List.takeWhile_append_of_pos hl, List.takeWhile_cons_of_neg (by simp [hc])]
  simp

theorem dropWhile_all_append (p : Char → Bool) (l : List Char) (c : Char)
    (r : List Char) (hl : ∀ a ∈ l, p a = true) (hc : p c = false) :
    (l ++ c :: r).dropWhile p = c :: r := by
  rw [List.dropWhile_append_of_pos hl, List.dropWhile_cons_of_neg (by simp [hc])]

/-- Claim C8: for every exchange tag and code string, rendering prepends
exactly one fixed digit determined by the tag (ShangHai 1, ShenZhen 0,
BeiJing 8, HongKong 5) to the code, `Stock::normalize` is that rendering at
the stock's own tag and code, and rendering is deterministic. -/
theorem claim_c8_render (ex : Exchange) (code : List Char) (s : Stock) :
    exchangeFormat Exchange.ShangHai code = '1' :: code ∧
    exchangeFormat Exchange.ShenZhen code = '0' :: code ∧
    exchangeFormat Exchange.BeiJing code = '8' :: code ∧
    exchangeFormat Exchange.HongKong code = '5' :: code ∧
    (exchangeFormat ex code).length = code.length + 1 ∧
    exchangeFormat ex code = exchangeFormat ex code ∧
    s.normalize = exchangeFormat s.exchange s.code := by
  refine ⟨rfl, rfl, rfl, rfl, ?_, rfl, ?_⟩
  · cases ex <;>
      simp [exchangeFormat, shangHaiFormat, shenZhenFormat, beiJingFormat,
        hongKongFormat]
  · cases s with
    | mk name code exchange => cases exchange <;> rfl

theorem sinaReset_iter_count (i : SinaInput) (n : Nat)
    (h : i.count + n < usizeBound) :
    (SinaInput.reset^[n] i).count = i.count + n := by
  induction n with
  | zero => rfl
  | succ k ih =>
    rw [Function.iterate_succ_apply']
    have hk : i.count + k < usizeBound := by omega
    simp only [SinaInput.reset, ih hk]
    rw [Nat.mod_eq_of_lt (by omega)]
    omega

theorem sinaReset_iter_key (i : SinaInput) (n : Nat) :
    (SinaInput.reset^[n] i).key = i.key := by
  induction n with
  | zero => rfl
  | succ k ih => rw [Function.iterate_succ_apply']; simp [SinaInput.reset, ih]

/-- Claim C9 (amended): for every Sina query input, `reset` leaves the keyword
unchanged and increments the usize request counter with wrap-around; whenever
the run of resets stays below the usize bound, each call increases the counter
by exactly one and the counter is strictly increasing across successive
calls. -/
theorem claim_c9_sina_reset (i : SinaInput) (n m : Nat) (hlt : n < m)
    (hnw : i.count + m < usizeBound) :
    (SinaInput.reset i).count = i.count + 1 ∧
    (SinaInput.reset i).key = i.key ∧
    (SinaInput.reset^[n] i).key = i.key ∧
    (SinaInput.reset^[n] i).count = i.count + n ∧
    (SinaInput.reset^[m] i).count = i.count + m ∧
    (SinaInput.reset^[n] i).count < (SinaInput.reset^[m] i).count := by
  have hn : i.count + n < usizeBound := by omega
  have h1 : (SinaInput.reset i).count = i.count + 1 := by
    simp only [SinaInput.reset]
    exact Nat.mod_eq_of_lt (by omega)
  refine ⟨h1, rfl, sinaReset_iter_key i n, sinaReset_iter_count i n hn,
    sinaReset_iter_count i m hnw, ?_⟩
  rw [sinaReset_iter_count i n hn, sinaReset_iter_count i m hnw]
  omega

/-- Witness for claim C9 at a concrete input far below the usize bound. -/
theorem claim_c9_sina_reset_witness :
    (0 < 1 ∧ 7 + 1 < usizeBound) ∧
    ((SinaInput.reset (SinaInput.mk ['a'] 7)).count = 7 + 1 ∧
      (SinaInput.reset (SinaInput.mk ['a'] 7)).key = ['a'] ∧
      (SinaInput.reset^[0] (SinaInput.mk ['a'] 7)).key = ['a'] ∧
      (SinaInput.reset^[0] (SinaInput.mk ['a'] 7)).count = 7 + 0 ∧
      (SinaInput.reset^[1] (SinaInput.mk ['a'] 7)).count = 7 + 1 ∧
      (SinaInput.reset^[0] (SinaInput.mk ['a'] 7)).count <
        (SinaInput.reset^[1] (SinaInput.mk ['a'] 7)).count) :=
  ⟨⟨by decide, by decide⟩,
    claim_c9_sina_reset (SinaInput.mk ['a'] 7) 0 1 (by decide) (by decide)⟩

/-- Counterexample to claim C9 as stated: at a counter equal to the largest
usize value, `reset` wraps the counter to zero instead of increasing it by
one, and the counter is not strictly increasing across the next call. -/
theorem claim_c9_counterexample :
    (SinaInput.reset (SinaInput.mk [] (usizeBound - 1))).count ≠ (usizeBound - 1) + 1 ∧
    ¬((SinaInput.reset^[0] (SinaInput.mk [] (usizeBound - 1))).count <
        (SinaInput.reset^[1] (SinaInput.mk [] (usizeBound - 1))).count) := by
  constructor
  · decide
  · decide

/-- Claim C5: for every CnInfo raw candidate, a type field equal to "hke"
forces HongKong classification regardless of the code; any other type value
falls back to `Exchange::guess_from_stock`, and the conversion fails exactly
when that fallback fails. -/
theorem claim_c5_cninfo_convert (o : CnInfoOutput) :
    cninfoTryIntoStock o =
      (if o.exchange = TYPE_HKE then some (Stock.mk o.zwjc o.code Exchange.HongKong)
       else (Exchange.guess_from_stock o.code).map
         (fun e => Stock.mk o.zwjc o.code e)) ∧
    (cninfoTryIntoStock o = none ↔
      ¬(o.exchange = TYPE_HKE) ∧ Exchange.guess_from_stock o.code = none) := by
  by_cases h : o.exchange = TYPE_HKE
  · simp [cninfoTryIntoStock, h]
  · cases hg : Exchange.guess_from_stock o.code <;>
      simp [cninfoTryIntoStock, h, hg]

/-- Claim C6: for every Hexun raw candidate, conversion succeeds exactly when
the market code is "a" and the org code is SSE, SZSE or BJSE (mapping to
ShangHai, ShenZhen and BeiJing respectively); any other market or org code
yields a rejection, independently of the code string, with no fallback to
prefix guessing. -/
theorem claim_c6_hexun_convert (o : HexunOutput) :
    hexunTryIntoStock o =
      (if o.marketcode = ['a'] ∧ o.orgcode = ['S', 'S', 'E'] then
        some (Stock.mk o.name o.code Exchange.ShangHai)
       else if o.marketcode = ['a'] ∧ o.orgcode = ['S', 'Z', 'S', 'E'] then
        some (Stock.mk o.name o.code Exchange.ShenZhen)
       else if o.marketcode = ['a'] ∧ o.orgcode = ['B', 'J', 'S', 'E'] then
        some (Stock.mk o.name o.code Exchange.BeiJing)
       else none) ∧
    ((hexunTryIntoStock o).isSome = true ↔
      o.marketcode = ['a'] ∧
        (o.orgcode = ['S', 'S', 'E'] ∨ o.orgcode = ['S', 'Z', 'S', 'E'] ∨
          o.orgcode = ['B', 'J', 'S', 'E'])) := by
  by_cases hm : o.marketcode = ['a'] <;>
    by_cases h1 : o.orgcode = ['S', 'S', 'E'] <;>
      by_cases h2 : o.orgcode = ['S', 'Z', 'S', 'E'] <;>
        by_cases h3 : o.orgcode = ['B', 'J', 'S', 'E'] <;>
          simp_all [hexunTryIntoStock]

/-- Claim C1 (amended): classification tries HongKong (UTF-8 byte length 5),
then ShangHai, ShenZhen and BeiJing by the two-byte slice at bytes 0..2 (which
exists only when byte offset 2 is a character boundary), returns the first
match and fails when none match; in particular any input of UTF-8 byte length
5 classifies as HongKong regardless of content. -/
theorem claim_c1_guess_priority (s : List Char) :
    Exchange.guess_from_stock s =
      (if strByteLen s = 5 then some Exchange.HongKong
       else if firstTwoBytes s = some ['6', '8'] ∨ firstTwoBytes s = some ['6', '0'] then
        some Exchange.ShangHai
       else if firstTwoBytes s = some ['0', '0'] ∨ firstTwoBytes s = some ['3', '0'] then
        some Exchange.ShenZhen
       else if firstTwoBytes s = some ['8', '8'] ∨ firstTwoBytes s = some ['8', '7'] ∨
          firstTwoBytes s = some ['8', '3'] ∨ firstTwoBytes s = some ['4', '3'] then
        some Exchange.BeiJing
       else none) := by
  unfold Exchange.guess_from_stock hongKongValid shangHaiValid shenZhenValid
    beiJingValid
  cases h : firstTwoBytes s <;> simp [h]

/-- Counterexample to claim C1 as stated: a five-character input made of
multi-byte characters does not classify as HongKong (its byte length is 15),
and classification fails on it. -/
theorem claim_c1_counterexample :
    (['越', '越', '越', '越', '越'] : List Char).length = 5 ∧
    Exchange.guess_from_stock ['越', '越', '越', '越', '越'] = none := by
  constructor
  · rfl
  · decide

/-- Claim C10: classification and normalization are total; on any input whose
first two bytes do not form a whole-character slice (including inputs shorter
than two bytes), the optional byte-range lookup yields no match instead of
trapping, so the input classifies as HongKong when its byte length is 5 and
otherwise produces the error (`none`). -/
theorem claim_c10_no_panic (s : List Char) (h : firstTwoBytes s = none) :
    (Exchange.guess_from_stock s =
      if strByteLen s = 5 then some Exchange.HongKong else none) ∧
    (normalize_stock_number s =
      if strByteLen s = 5 then some ('5' :: s) else none) := by
  unfold Exchange.guess_from_stock normalize_stock_number hongKongValid
    shangHaiValid shenZhenValid beiJingValid hongKongFormat
  simp [h]

/-- Witness for claim C10 at a concrete input whose byte 2 is not a character
boundary. -/
theorem claim_c10_no_panic_witness :
    firstTwoBytes ['越'] = none ∧
    ((Exchange.guess_from_stock ['越'] =
        if strByteLen ['越'] = 5 then some Exchange.HongKong else none) ∧
      (normalize_stock_number ['越'] =
        if strByteLen ['越'] = 5 then some ('5' :: ['越']) else none)) :=
  ⟨by decide, claim_c10_no_panic ['越'] (by decide)⟩

theorem searchLoop_eq {α : Type} (conv : α → Option Stock) (l : List α) :
    ∀ hongkong : Option Stock,
      searchLoop conv l hongkong =
        match (l.filterMap conv).find? (fun st => st.exchange != Exchange.HongKong) with
        | some st => some st
        | none =>
          match hongkong with
          | some h => some h
          | none => (l.filterMap conv).find? (fun st => st.exchange == Exchange.HongKong) := by
  induction l with
  | nil => intro hk; cases hk <;> simp [searchLoop]
  | cons o rest ih =>
    intro hk
    cases hc : conv o with
    | none => simp [searchLoop, hc, List.filterMap_cons, ih]
    | some st =>
      by_cases hex : st.exchange = Exchange.HongKong
      · cases hk <;>
          simp [searchLoop, hc, List.filterMap_cons, hex, ih, List.find?]
      · simp [searchLoop, hc, List.filterMap_cons, hex, List.find?,
          bne_iff_ne]

/-- Claim C2: `Search::search` returns the first candidate, in the provider's
original order, that converts to a non-HongKong stock; failing that, the first
converted HongKong stock; failing that, the not-found error (`none`).
Candidates whose conversion fails are discarded by `List.filterMap` without
failing the search. -/
theorem claim_c2_search_best {α : Type} (conv : α → Option Stock)
    (outputs : List α) :
    Search.search conv outputs =
      match (outputs.filterMap conv).find? (fun st => st.exchange != Exchange.HongKong) with
      | some st => some st
      | none => (outputs.filterMap conv).find? (fun st => st.exchange == Exchange.HongKong) := by
  have h := searchLoop_eq conv outputs none
  simpa [Search.search] using h

/-- Claim C4: for every response body of the shape `var name="records"` -- a
variable name free of equal signs and a quote-free value -- `Sina::search_all`
reads the value as semicolon-separated records of comma-separated fields,
keeps exactly the records with at least 3 fields, and maps each kept record to
a candidate with field 0 as the name and field 2 as the code. -/
theorem claim_c4_sina_parse (c : Char) (vrest content : List Char)
    (hws : isWsChar c = false)
    (heq : ∀ a ∈ c :: vrest, (!(a = '=') : Bool) = true)
    (hq : ∀ a ∈ content, (!(a = '"') : Bool) = true) :
    sinaSearchAll
        ('v' :: 'a' :: 'r' :: ' ' :: c :: (vrest ++ '=' :: '"' :: (content ++ ['"']))) =
      some ((((content.splitOn ';').map (fun r => r.splitOn ',')).filter
          (fun v => 3 ≤ v.length)).map
        (fun v => SinaOutput.mk (v.getD 2 []) (v.getD 0 []))) := by
  have e1 : ('v' :: 'a' :: 'r' :: ' ' :: c :: (vrest ++ '=' :: '"' :: (content ++ ['"']))).dropWhile isWsChar
      = 'v' :: 'a' :: 'r' :: ' ' :: c :: (vrest ++ '=' :: '"' :: (content ++ ['"'])) :=
    List.dropWhile_cons_of_neg (by decide)
  have e2 : (' ' :: c :: (vrest ++ '=' :: '"' :: (content ++ ['"']))).dropWhile isWsChar
      = c :: (vrest ++ '=' :: '"' :: (content ++ ['"'])) := by
    rw [List.dropWhile_cons_of_pos (by decide),
      List.dropWhile_cons_of_neg (by simp [hws])]
  have e3 : (c :: (vrest ++ '=' :: '"' :: (content ++ ['"']))).dropWhile (fun x => !(x = '='))
      = '=' :: '"' :: (content ++ ['"']) := by
    have hsh : c :: (vrest ++ '=' :: '"' :: (content ++ ['"']))
        = (c :: vrest) ++ '=' :: ('"' :: (content ++ ['"'])) := by simp
    rw [hsh]
    exact dropWhile_all_append _ _ _ _ heq (by decide)
  have e4 : (content ++ ['"']).takeWhile (fun x => !(x = '"')) = content :=
    takeWhile_all_append _ _ _ [] hq (by decide)
  have e5 : (content ++ ['"']).dropWhile (fun x => !(x = '"')) = ['"'] :=
    dropWhile_all_append _ _ _ [] hq (by decide)
  simp only [sinaSearchAll, sinaParse, e1, e2, e3, e4, e5, List.take, List.drop,
    Option.map_some]
  simp

/-- Witness for claim C4 at the suggestdata fixture of the specification. -/
theorem claim_c4_sina_parse_witness :
    (isWsChar 's' = false) ∧
    (∀ a ∈ 's' :: "uggestdata_5".toList, (!(a = '=') : Bool) = true) ∧
    (∀ a ∈ "浦发银行,11,600000,1;招商银行,11,600036,1".toList, (!(a = '"') : Bool) = true) ∧
    sinaSearchAll
        ('v' :: 'a' :: 'r' :: ' ' :: 's' :: ("uggestdata_5".toList ++ '=' :: '"' ::
          ("浦发银行,11,600000,1;招商银行,11,600036,1".toList ++ ['"']))) =
      some [SinaOutput.mk "600000".toList "浦发银行".toList,
        SinaOutput.mk "600036".toList "招商银行".toList] :=
  ⟨by decide, by decide, by decide,
    (claim_c4_sina_parse 's' "uggestdata_5".toList
      "浦发银行,11,600000,1;招商银行,11,600036,1".toList (by decide) (by decide)
      (by decide)).trans (by decide)⟩

theorem tryCode_render (c r : List Char) (hc6 : c.length = 6)
    (hdig : c.all isDigit10 = true) :
    tryCode ('>' :: (c ++ (tdClose ++ r))) = some (c, r) := by
  have ht : (c ++ (tdClose ++ r)).take 6 = c := List.take_left' hc6
  have hd : (c ++ (tdClose ++ r)).drop 6 = tdClose ++ r := List.drop_left' hc6
  have ht5 : (tdClose ++ r).take 5 = tdClose := List.take_left' rfl
  have hd5 : (tdClose ++ r).drop 5 = r := List.drop_left' rfl
  simp [tryCode, ht, hd, ht5, hd5, hc6, hdig]

theorem tryCode_none_of_head (a : Char) (r : List Char) (h : ¬(a = '>')) :
    tryCode (a :: r) = none := by
  simp [tryCode, h]

theorem tryName_render (n r : List Char) (hne : n ≠ [])
    (hna : n.all (fun c => !isAsciiChar c) = true) :
    tryName (';' :: '>' :: (n ++ (tdClose ++ r))) = some (n, r) := by
  have hsh : n ++ (tdClose ++ r) = n ++ '<' :: (['/', 't', 'd', '>'] ++ r) := rfl
  have ht : (n ++ (tdClose ++ r)).takeWhile (fun c => !isAsciiChar c) = n := by
    rw [hsh]
    exact takeWhile_all_append _ _ _ _ (List.all_eq_true.mp hna) (by decide)
  have hd : (n ++ (tdClose ++ r)).dropWhile (fun c => !isAsciiChar c)
      = '<' :: (['/', 't', 'd', '>'] ++ r) := by
    rw [hsh]
    exact dropWhile_all_append _ _ _ _ (List.all_eq_true.mp hna) (by decide)
  simp only [tryName]
  rw [ht, hd, if_pos ⟨trivial, trivial, hne, rfl⟩]
  rfl

theorem tryName_none_of_head (a : Char) (r : List Char) (h : ¬(a = ';')) :
    tryName (a :: r) = none := by
  cases r with
  | nil => rfl
  | cons b rs => simp [tryName, h]

theorem cfiEmitSt_nil (st : CfiSt) : cfiEmitSt st [] = [] := by
  cases st <;> rfl

theorem cfiScanF_render (ts : List CfiTok) :
    ∀ fuel (currCode currName : Option (List Char)) (out : List CfiOutput),
      ts.all validTok = true → (renderToks ts).length ≤ fuel →
      cfiScanF fuel (renderToks ts) currCode currName out =
        cfiTokScan ts currCode currName out := by
  induction ts with
  | nil =>
    intro fuel cc cn out _ _
    cases fuel <;> simp [renderToks, cfiScanF, cfiTokScan]
  | cons t ts ih =>
    intro fuel cc cn out hv hf
    have hvt : validTok t = true := (List.all_cons .. ▸ hv |> Bool.and_eq_true_iff.mp).1
    have hvts : ts.all validTok = true := (List.all_cons .. ▸ hv |> Bool.and_eq_true_iff.mp).2
    cases t with
    | code c =>
      obtain ⟨hc6, hdig⟩ : c.length = 6 ∧ c.all isDigit10 = true := by
        simpa [validTok] using hvt
      have hsh : renderToks (CfiTok.code c :: ts)
          = '>' :: (c ++ (tdClose ++ renderToks ts)) := by
        simp [renderToks, renderTok]
      rw [hsh] at hf ⊢
      cases fuel with
      | zero => simp at hf
      | succ f =>
        have hlen : (renderToks ts).length ≤ f := by
          simp [List.length_append] at hf
          omega
        simp only [cfiScanF, tryCode_render c (renderToks ts) hc6 hdig]
        cases cc with
        | none => simp only [cfiTokScan]; exact ih f (some c) none out hvts hlen
        | some c0 =>
          cases cn with
          | none => simp only [cfiTokScan]; exact ih f (some c) none out hvts hlen
          | some n0 =>
            simp only [cfiTokScan]
            exact ih f none none (out ++ [CfiOutput.mk c0 n0]) hvts hlen
    | name n =>
      obtain ⟨hne, hna⟩ : n ≠ [] ∧ n.all (fun c => !isAsciiChar c) = true := by
        simpa [validTok] using hvt
      have hsh : renderToks (CfiTok.name n :: ts)
          = ';' :: '>' :: (n ++ (tdClose ++ renderToks ts)) := by
        simp [renderToks, renderTok]
      rw [hsh] at hf ⊢
      cases fuel with
      | zero => simp at hf
      | succ f =>
        have hlen : (renderToks ts).length ≤ f := by
          simp [List.length_append] at hf
          omega
        simp only [cfiScanF, tryCode_none_of_head ';' _ (by decide),
          tryName_render n (renderToks ts) hne hna]
        cases cc with
        | none =>
          simp only [cfiTokScan, Option.isSome_none, Bool.false_eq_true,
            if_false, if_neg]
          exact ih f none cn out hvts hlen
        | some c0 =>
          simp only [cfiTokScan, Option.isSome_some, if_true, if_pos]
          exact ih f (some c0) (some n) out hvts hlen
    | junk ch =>
      obtain ⟨hgt, hsemi⟩ : ¬(ch = '>') ∧ ¬(ch = ';') := by
        simpa [validTok] using hvt
      have hsh : renderToks (CfiTok.junk ch :: ts) = ch :: renderToks ts := by
        simp [renderToks, renderTok]
      rw [hsh] at hf ⊢
      cases fuel with
      | zero => simp at hf
      | succ f =>
        have hlen : (renderToks ts).length ≤ f := by
          simp at hf
          omega
        simp only [cfiScanF, tryCode_none_of_head ch _ hgt,
          tryName_none_of_head ch _ hsemi]
        simp only [cfiTokScan]
        exact ih f cc cn out hvts hlen

theorem cfiTokScan_emitSt (ts : List CfiTok) :
    ∀ (currCode currName : Option (List Char)) (out : List CfiOutput),
      cfiTokScan ts currCode currName out =
        out ++ cfiEmitSt (stOf currCode currName) (toksEntries ts) := by
  induction ts with
  | nil =>
    intro cc cn out
    simp [cfiTokScan, toksEntries, cfiEmitSt_nil]
  | cons t ts ih =>
    intro cc cn out
    cases t with
    | code c =>
      cases cc with
      | none => cases cn <;> simp [cfiTokScan, toksEntries, stOf, cfiEmitSt, ih]
      | some c0 => cases cn <;> simp [cfiTokScan, toksEntries, stOf, cfiEmitSt, ih]
    | name n =>
      cases cc with
      | none => cases cn <;> simp [cfiTokScan, toksEntries, stOf, cfiEmitSt, ih]
      | some c0 => cases cn <;> simp [cfiTokScan, toksEntries, stOf, cfiEmitSt, ih]
    | junk ch => simp [cfiTokScan, toksEntries, ih]

/-- Claim C3 (amended): on any response that is a well-formed sequence of
six-digit td-wrapped codes, non-ASCII td-wrapped names and filler characters,
`Cfi::search_all` behaves as the state machine `cfiEmitSt`: a name fills the
name slot only when a code is pending (a later name overwrites it); a code
seen without a complete pending pair becomes the pending code and clears the
name; a code seen with a complete pending pair emits that pair and is itself
discarded rather than becoming pending. In particular a code immediately
followed by another code drops the first, and a trailing completed pair is
never emitted. -/
theorem claim_c3_cfi_scan (ts : List CfiTok) (hv : ts.all validTok = true) :
    cfiSearchAll (renderToks ts) = cfiEmitSt CfiSt.empty (toksEntries ts) := by
  have h1 := cfiScanF_render ts (renderToks ts).length none none [] hv (le_refl _)
  have h2 := cfiTokScan_emitSt ts none none []
  rw [cfiSearchAll, h1, h2]
  rfl

/-- Witness for claim C3 at a concrete token sequence with two code cells,
two name cells and a filler character. -/
theorem claim_c3_cfi_scan_witness :
    ([CfiTok.code "600000".toList, CfiTok.name ['浦'], CfiTok.junk 'x',
        CfiTok.code "600036".toList, CfiTok.name ['商']].all validTok = true) ∧
    cfiSearchAll (renderToks [CfiTok.code "600000".toList, CfiTok.name ['浦'],
        CfiTok.junk 'x', CfiTok.code "600036".toList, CfiTok.name ['商']]) =
      [CfiOutput.mk "600000".toList ['浦']] :=
  ⟨by decide,
    (claim_c3_cfi_scan [CfiTok.code "600000".toList, CfiTok.name ['浦'],
      CfiTok.junk 'x', CfiTok.code "600036".toList, CfiTok.name ['商']]
      (by decide)).trans (by decide)⟩

/-- Counterexample to claim C3 as stated: in this response the code 600036 is
followed by the td-wrapped name 商 before the next code 600519 appears, yet
the scanner emits only the first pair; the pair (600036, 商) is missing
because 600036 was consumed as the trigger that flushed the first pair. -/
theorem claim_c3_counterexample :
    cfiSearchAll ">600000</td>;>浦</td>>600036</td>;>商</td>>600519</td>".toList =
      [CfiOutput.mk "600000".toList ['浦']] ∧
    ([CfiOutput.mk "600000".toList ['浦']] ≠
      [CfiOutput.mk "600000".toList ['浦'], CfiOutput.mk "600036".toList ['商']]) := by
  constructor
  · decide
  · decide

theorem sohuRow_strings (cols : List (List Char)) :
    sohuRow (Json.arr (cols.map Json.str)) =
      if 3 ≤ cols.length then
        some (SoHuOutput.mk (cols.getD 1 [])
          ((cols.getD 2 []).filter (fun c => !isAsciiChar c)))
      else none := by
  by_cases h3 : 3 ≤ cols.length
  · have e1 : cols[1]? = some (cols.getD 1 []) := by
      rw [List.getD_eq_getElem?_getD, List.getElem?_eq_getElem (by omega)]
      rfl
    have e2 : cols[2]? = some (cols.getD 2 []) := by
      rw [List.getD_eq_getElem?_getD, List.getElem?_eq_getElem (by omega)]
      rfl
    have f1 : ((cols.map Json.str)[1]?).bind jsonAsStr = some (cols.getD 1 []) := by
      rw [List.getElem?_map, e1]
      rfl
    have f2 : ((cols.map Json.str)[2]?).bind jsonAsStr = some (cols.getD 2 []) := by
      rw [List.getElem?_map, e2]
      rfl
    simp only [sohuRow, jsonAsArr, List.length_map, f1, f2, if_pos h3]
  · simp only [sohuRow, jsonAsArr, List.length_map, if_neg h3]

theorem sohu_filterMap_strings (rows : List (List (List Char))) :
    rows.filterMap (fun cols => sohuRow (Json.arr (cols.map Json.str))) =
      (rows.filter (fun cols => 3 ≤ cols.length)).map
        (fun cols => SoHuOutput.mk (cols.getD 1 [])
          ((cols.getD 2 []).filter (fun c => !isAsciiChar c))) := by
  induction rows with
  | nil => simp
  | cons r rs ih =>
    rw [List.filterMap_cons, sohuRow_strings, List.filter_cons]
    by_cases h3 : 3 ≤ r.length
    · rw [if_pos h3, if_pos (by simpa using h3), List.map_cons, ih]
    · rw [if_neg h3, if_neg (by simpa using h3), ih]

/-- Claim C7: for every parsed SoHu response whose result field is an array of
rows of string columns, `SoHu::search_all` keeps exactly the rows with at
least 3 columns, taking column 1 as the code and column 2 with every ASCII
character removed as the name; shorter rows are dropped. -/
theorem claim_c7_sohu_extract (j : Json) (rows : List (List (List Char)))
    (h : jsonGet j ['r', 'e', 's', 'u', 'l', 't'] =
      some (Json.arr (rows.map (fun cols => Json.arr (cols.map Json.str))))) :
    sohuExtract j =
      some ((rows.filter (fun cols => 3 ≤ cols.length)).map
        (fun cols => SoHuOutput.mk (cols.getD 1 [])
          ((cols.getD 2 []).filter (fun c => !isAsciiChar c)))) := by
  have hmain : sohuExtract j =
      some ((rows.map (fun cols => Json.arr (cols.map Json.str))).filterMap sohuRow) := by
    unfold sohuExtract
    rw [h]
    rfl
  rw [hmain]
  refine congrArg some ?_
  simp only [List.filterMap_map]
  exact sohu_filterMap_strings rows

/-- Witness for claim C7 at a two-row fixture: a one-column row is dropped and
the kept row's name column loses its ASCII ticker suffix. -/
theorem claim_c7_sohu_extract_witness :
    (jsonGet (Json.obj [(['r', 'e', 's', 'u', 'l', 't'],
        Json.arr ([[['x']], [['1'], "600000".toList, "浦发银行PF".toList]].map
          (fun cols => Json.arr (cols.map Json.str))))]) ['r', 'e', 's', 'u', 'l', 't'] =
      some (Json.arr ([[['x']], [['1'], "600000".toList, "浦发银行PF".toList]].map
        (fun cols => Json.arr (cols.map Json.str))))) ∧
    sohuExtract (Json.obj [(['r', 'e', 's', 'u', 'l', 't'],
        Json.arr ([[['x']], [['1'], "600000".toList, "浦发银行PF".toList]].map
          (fun cols => Json.arr (cols.map Json.str))))]) =
      some [SoHuOutput.mk "600000".toList "浦发银行".toList] :=
  ⟨rfl,
    (claim_c7_sohu_extract
      (Json.obj [(['r', 'e', 's', 'u', 'l', 't'],
        Json.arr ([[['x']], [['1'], "600000".toList, "浦发银行PF".toList]].map
          (fun cols => Json.arr (cols.map Json.str))))])
      [[['x']], [['1'], "600000".toList, "浦发银行PF".toList]] (by rfl)).trans
      (by decide)⟩
